import Mathlib

/-!
Verification of the markdown-indexer core (`src/lib.rs`, `src/main.rs`)

Shallow embedding of the section-segmentation core and the CLI glue of the
markdown-indexer repository, followed by theorems settling the specification
claims about it.

The mdast node taxonomy consumed by `index_markdown` is embedded as `MdNode`.
The Rust code discriminates the following shapes of `markdown::mdast::Node`:

* `Heading` — own arm in the segmenter; carries `depth` (u8) and children;
* `Code` — own arm; carries optional `lang`, optional `meta` and a literal
  `value`; it has no children (`node.children()` is `None`);
* `Paragraph` — its own arm in the segmenter, whose body is identical to the
  generic "other" arm;
* the remaining kinds, all sent to one big "flatten to text" arm.  Among those
  we distinguish the shapes that matter to `collect_text`:
  - `Text` (literal text run, `value`, no children)         → `MdNode.text`
  - `InlineCode` (literal inline-code span, no children)    → `MdNode.inlineCode`
  - kinds with children (List, Blockquote, Table, Emphasis,
    Strong, Link, Delete, ListItem, TableRow, TableCell, …) → `MdNode.container`
  - kinds with a literal value but no children (Html, Math,
    InlineMath, Toml, Yaml, MdxTextExpression, …)           → `MdNode.opaqueLeaf`
  - kinds with neither children nor value (ThematicBreak,
    Break, Image, ImageReference, FootnoteReference,
    Definition)                                             → `MdNode.leaf`

`Root` never occurs as a child of `Root`: `to_mdast` returns exactly one root
node, and the source itself notes that its `Root` match arm (a no-op) exists
only to keep the match exhaustive.  The embedding therefore models the
sequence of the root's children over the child taxonomy above; the dead
`Root`-as-child arm is the one piece of the match not represented.

Machine integers: `Heading.depth` is a `u8` (the parser only produces 1–6) and
the CLI depth is a `usize`; neither is subjected to arithmetic by this code,
so they are embedded as `Nat` (with the `usize` parse bounded by `2 ^ 64`,
matching overflow-checked `str::parse::<usize>` on a 64-bit target).
-/

inductive MdNode : Type where
  | heading (depth : Nat) (children : List MdNode)
  | code (lang : Option String) (meta : Option String) (value : String)
  | paragraph (children : List MdNode)
  | text (value : String)
  | inlineCode (value : String)
  | container (children : List MdNode)
  | opaqueLeaf (value : String)
  | leaf

/-- Structure `CodeBlock` from `src/lib.rs`. -/
structure CodeBlock : Type where
  lang : Option String
  meta : Option String
  value : String
deriving DecidableEq, Repr

/-- Structure `Section` from `src/lib.rs` (`level` is a `u8` in the source). -/
structure Section : Type where
  title : String
  level : Nat
  body_text : List String
  code_blocks : List CodeBlock
deriving DecidableEq, Repr

/-- Structure `JsonDocumentElement` from `src/lib.rs`. -/
structure JsonDocumentElement : Type where
  file_path : String
  header : String
  text_blocks : List String
  code_blocks : List String
deriving DecidableEq, Repr

/-! The tree flattener (`collect_text` / `node_to_plain_text`)

`collect_text(node, &mut out)` pushes the literal value of a `Text` or
`InlineCode` node onto `out` and otherwise iterates `collect_text` over
`node.children()` when that is `Some(..)`; kinds without children (`Code`,
`Html`-like opaque leaves, childless leaves) leave `out` untouched. -/

mutual

def collect_text : MdNode → String → String
  | .text v, out => out ++ v
  | .inlineCode v, out => out ++ v
  | .heading _ cs, out => collect_children cs out
  | .paragraph cs, out => collect_children cs out
  | .container cs, out => collect_children cs out
  | .code _ _ _, out => out
  | .opaqueLeaf _, out => out
  | .leaf, out => out

def collect_children : List MdNode → String → String
  | [], out => out
  | c :: cs, out => collect_children cs (collect_text c out)

end

/-- Rust `node_to_plain_text` from `src/lib.rs`: run `collect_text` on an empty
accumulator. -/
def node_to_plain_text (node : MdNode) : String :=
  collect_text node ""

/-! The section segmenter (`index_markdown`)

The loop body of `index_markdown` is embedded as a step function on the pair
of locals `(sections, current)`.  The source duplicates two fragments of code,
which become shared helpers here:

* "if let `Some(sec) = current.take() { sections.push(sec); }`" appears in the
  `Heading` arm and as the final flush → `finalize`;
* the `Paragraph` arm and the generic "other" arm have literally identical
  bodies (flatten, skip when the trimmed text is empty, else push onto
  `body_text`, opening a preamble section when no section is open)
  → `push_text`;
* the `Code` arm → `push_code`.

Rust's `text.trim().is_empty()` holds exactly when every character of `text`
is whitespace; it is embedded as `is_blank` below (`Char.isWhitespace` stands
in for Rust's `char::is_whitespace`; the two classes agree on ASCII). -/

/-- Rust `text.trim().is_empty()`: the text is empty or whitespace-only. -/
def is_blank (text : String) : Bool :=
  text.data.all Char.isWhitespace

/-- The two mutable locals of `index_markdown`. -/
structure SegState : Type where
  sections : List Section
  current : Option Section
deriving DecidableEq, Repr

/-- Rust fragment `if let Some(sec) = current.take() { sections.push(sec); }`. -/
def finalize (st : SegState) : List Section :=
  match st.current with
  | some sec => st.sections ++ [sec]
  | none => st.sections

/-- Shared body of the `Paragraph` arm and the generic "other" arm of the
segmenter's match (the two are identical in the source). -/
def push_text (st : SegState) (text : String) : SegState :=
  if is_blank text then st
  else
    match st.current with
    | some sec =>
        { st with current := some ({ sec with body_text := sec.body_text ++ [text] }) }
    | none =>
        { sections := st.sections,
          current := some ({ title := "(preamble)", level := 0,
                             body_text := [text], code_blocks := [] }) }

/-- The `Code` arm of the segmenter's match. -/
def push_code (st : SegState) (lang meta : Option String) (value : String) : SegState :=
  match st.current with
  | some sec =>
      { st with current := some ({ sec with
          code_blocks := sec.code_blocks ++ [⟨lang, meta, value⟩] }) }
  | none =>
      { sections := st.sections,
        current := some ({ title := "(preamble)", level := 0,
                           body_text := [], code_blocks := [⟨lang, meta, value⟩] }) }

/-- One iteration of the `for node in &root.children` loop of
`index_markdown`. -/
def index_step (st : SegState) (node : MdNode) : SegState :=
  match node with
  | .heading d cs =>
      { sections := finalize st,
        current := some ({ title := node_to_plain_text (.heading d cs), level := d,
                           body_text := [], code_blocks := [] }) }
  | .code lang meta value => push_code st lang meta value
  | .paragraph cs => push_text st (node_to_plain_text (.paragraph cs))
  | .text v => push_text st (node_to_plain_text (.text v))
  | .inlineCode v => push_text st (node_to_plain_text (.inlineCode v))
  | .container cs => push_text st (node_to_plain_text (.container cs))
  | .opaqueLeaf v => push_text st (node_to_plain_text (.opaqueLeaf v))
  | .leaf => push_text st (node_to_plain_text .leaf)

/-- The segmentation loop of `index_markdown` over the root's children,
including the final flush of `current`. -/
def index_nodes (nodes : List MdNode) : List Section :=
  finalize (nodes.foldl index_step { sections := [], current := none })

/-- Function `index_markdown` itself: feed the source to the external parser
(`markdown::to_mdast`, which on success always returns a `Root` node, whose
children the segmenter walks), propagate its error, otherwise segment.  The
parser is external to this repository, so it is a parameter. -/
def index_markdown (to_mdast : String → Except String (List MdNode))
    (src : String) : Except String (List Section) :=
  match to_mdast src with
  | .error e => .error e
  | .ok children => .ok (index_nodes children)

/-! Boundary record conversion (`process_path` in `src/main.rs`) -/

/-- The per-section closure of `process_path`: build a `JsonDocumentElement`
from a `Section` and the originating file path. -/
def section_to_document_element (file_path : String) (s : Section) : JsonDocumentElement :=
  { file_path := file_path,
    header := s.title,
    text_blocks := s.body_text,
    code_blocks := s.code_blocks.map fun cb => cb.value }

/-- The `sections.into_iter().map(..).collect()` of `process_path`. -/
def file_documents (file_path : String) (sections : List Section) : List JsonDocumentElement :=
  sections.map (section_to_document_element file_path)

/-! CLI argument parsing (`parse_args` in `src/main.rs`) -/

/-- Function `usage` from `src/main.rs` (the exact text is irrelevant to the claims). -/
def usage (program : String) : String :=
  "Usage: " ++ program ++ " <input1> [input2 ...] [--depth N]\n" ++
  "  - Each input can be a markdown file or a folder.\n" ++
  "  - The optional --depth/-d flag must come after all inputs."

/-- Is this token the depth flag? (`last == \x22--depth\x22 || last == \x22-d\x22`). -/
def depth_flag (s : String) : Bool :=
  s = "--depth" || s = "-d"

/-- Rust's `str::parse::<usize>`: optional leading `+`, then one or more ASCII
digits, value below `2 ^ 64` (64-bit target; overflow is a parse error). -/
def parse_usize (s : String) : Option Nat :=
  let cs := if s.data.head? = some '+' then s.data.drop 1 else s.data
  if cs.isEmpty then none
  else if cs.all Char.isDigit then
    let n := cs.foldl (fun acc c => acc * 10 + (c.toNat - 48)) 0
    if n < 2 ^ 64 then some n else none
  else none

/-- Rust `arg.starts_with('-')`. -/
def starts_with_dash (a : String) : Bool :=
  a.data.head? = some '-'

/-- The tail of `parse_args` after depth extraction: error when no positional
input remains, error on the first remaining token starting with `-`, else
succeed. -/
def accept_inputs (program : String) (inputs : List String) (depth : Option Nat) :
    Except String (List String × Option Nat) :=
  if inputs.isEmpty then .error (usage program)
  else
    match inputs.find? starts_with_dash with
    | some a => .error ("Unknown flag or flag placed before inputs: " ++ a ++ "\n" ++ usage program)
    | none => .ok (inputs, depth)

/-- The body of `parse_args` acting on `inputs0 = args[1..]` (the slice after
the program name): reject a trailing valueless depth flag, extract a trailing
pair of depth flag (`--depth` or `-d`) and value when present (rejecting an
unparsable value), then validate the remaining positional inputs. -/
def parse_rest_with (program : String) (inputs0 : List String) (last : String) :
    Except String (List String × Option Nat) :=
  if depth_flag last then .error "Expected a value after --depth/-d"
  else if 2 ≤ inputs0.length && (inputs0.get? (inputs0.length - 2)).any depth_flag then
    match parse_usize last with
    | none => .error ("Invalid depth value: " ++ last)
    | some d => accept_inputs program (inputs0.take (inputs0.length - 2)) (some d)
  else accept_inputs program inputs0 none

def parse_rest (program : String) (inputs0 : List String) :
    Except String (List String × Option Nat) :=
  match inputs0.getLast? with
  | none => .error (usage program)
  | some last => parse_rest_with program inputs0 last

/-- Function `parse_args` from `src/main.rs`.  `args` includes the program
name at index 0 (as `env::args` guarantees). -/
def parse_args (args : List String) : Except String (List String × Option Nat) :=
  if args.length < 2 then .error (usage (args.headD ""))
  else parse_rest (args.headD "") (args.drop 1)


/-! Flattener lemmas: the accumulator-passing `collect_text` computes pure
string concatenation of the flattened children. -/

mutual

theorem collect_text_append : (n : MdNode) → (out : String) →
    collect_text n out = out ++ collect_text n ""
  | .text v, out => by
      show out ++ v = out ++ ("" ++ v)
      rw [String.empty_append]
  | .inlineCode v, out => by
      show out ++ v = out ++ ("" ++ v)
      rw [String.empty_append]
  | .heading _ cs, out => collect_children_append cs out
  | .paragraph cs, out => collect_children_append cs out
  | .container cs, out => collect_children_append cs out
  | .code _ _ _, out => by
      show out = out ++ ""
      rw [String.append_empty]
  | .opaqueLeaf _, out => by
      show out = out ++ ""
      rw [String.append_empty]
  | .leaf, out => by
      show out = out ++ ""
      rw [String.append_empty]

theorem collect_children_append : (cs : List MdNode) → (out : String) →
    collect_children cs out = out ++ collect_children cs ""
  | [], out => by
      show out = out ++ ""
      rw [String.append_empty]
  | c :: cs, out => by
      show collect_children cs (collect_text c out)
        = out ++ collect_children cs (collect_text c "")
      rw [collect_children_append cs (collect_text c out),
        collect_children_append cs (collect_text c ""),
        collect_text_append c out, String.append_assoc]

end

theorem string_join_cons (s : String) (l : List String) :
    String.join (s :: l) = s ++ String.join l := by
  apply String.ext
  simp [String.data_join]

/-- Flattening a list of children concatenates the flattened children in
order, with no separator. -/
theorem collect_children_join : (cs : List MdNode) →
    collect_children cs "" = String.join (cs.map node_to_plain_text)
  | [] => rfl
  | c :: cs => by
      show collect_children cs (collect_text c "") = _
      rw [collect_children_append cs (collect_text c ""), collect_children_join cs,
        List.map_cons, string_join_cons]
      rfl

/-- C4: `flatten` (`node_to_plain_text`) returns exactly the literal string
value on a literal text run or a literal inline-code span, and otherwise
returns the concatenation, in child order with no separator, of the flattened
children; a node with no children (in particular one with no children and no
literal value, such as a thematic break) flattens to the empty string. -/
theorem c4_flatten_contract :
    (∀ v, node_to_plain_text (.text v) = v)
    ∧ (∀ v, node_to_plain_text (.inlineCode v) = v)
    ∧ (∀ d cs, node_to_plain_text (.heading d cs) = String.join (cs.map node_to_plain_text))
    ∧ (∀ cs, node_to_plain_text (.paragraph cs) = String.join (cs.map node_to_plain_text))
    ∧ (∀ cs, node_to_plain_text (.container cs) = String.join (cs.map node_to_plain_text))
    ∧ node_to_plain_text .leaf = ""
    ∧ (∀ l m v, node_to_plain_text (.code l m v) = "")
    ∧ (∀ v, node_to_plain_text (.opaqueLeaf v) = "") := by
  refine ⟨fun v => ?_, fun v => ?_, fun d cs => ?_, fun cs => ?_, fun cs => ?_,
    rfl, fun l m v => rfl, fun v => rfl⟩
  · show "" ++ v = v
    rw [String.empty_append]
  · show "" ++ v = v
    rw [String.empty_append]
  · exact collect_children_join cs
  · exact collect_children_join cs
  · exact collect_children_join cs

/-! Segmenter step lemmas. -/

/-- Finalizing appends the open section (if any) after the finished ones. -/
theorem finalize_eq (st : SegState) :
    finalize st = st.sections ++ st.current.toList := by
  cases st with
  | mk sections current =>
      cases current with
      | some sec => rfl
      | none => simp [finalize]

/-- A heading step finalizes the open section and opens a fresh one carrying
the flattened heading text and the heading's depth. -/
theorem index_step_heading_eq (st : SegState) (d : Nat) (cs : List MdNode) :
    index_step st (.heading d cs)
      = { sections := finalize st,
          current := some { title := node_to_plain_text (.heading d cs), level := d,
                            body_text := [], code_blocks := [] } } := rfl

theorem finalize_index_step_heading (st : SegState) (d : Nat) (cs : List MdNode) :
    finalize (index_step st (.heading d cs))
      = finalize st
        ++ [{ title := node_to_plain_text (.heading d cs), level := d,
              body_text := [], code_blocks := [] }] := rfl

theorem run_headings : (hs : List (Nat × List MdNode)) → (st : SegState) →
    finalize ((hs.map fun p => MdNode.heading p.1 p.2).foldl index_step st)
      = finalize st
        ++ hs.map fun p =>
            Section.mk (node_to_plain_text (.heading p.1 p.2)) p.1 [] []
  | [], st => by simp
  | p :: hs, st => by
      simp only [List.map_cons, List.foldl_cons]
      rw [run_headings hs (index_step st (.heading p.1 p.2)),
        finalize_index_step_heading, List.append_assoc]
      rfl

/-- C1: every heading node unconditionally finalizes the in-progress section
(when one is open) onto the output and starts a new current section whose
title is the flattened heading content, whose level is the heading's depth,
and whose body and code lists are empty; the section still open at end of
input is finalized and appended exactly once, so a document of N consecutive
headings yields exactly the N corresponding empty sections. -/
theorem c1_heading_starts_section :
    (∀ (st : SegState) (d : Nat) (cs : List MdNode),
        index_step st (.heading d cs)
          = { sections := finalize st,
              current := some { title := node_to_plain_text (.heading d cs), level := d,
                                body_text := [], code_blocks := [] } })
    ∧ (∀ (ns : List MdNode) (d : Nat) (cs : List MdNode),
        index_nodes (ns ++ [.heading d cs])
          = index_nodes ns
            ++ [{ title := node_to_plain_text (.heading d cs), level := d,
                  body_text := [], code_blocks := [] }])
    ∧ (∀ hs : List (Nat × List MdNode),
        index_nodes (hs.map fun p => MdNode.heading p.1 p.2)
          = hs.map fun p =>
              Section.mk (node_to_plain_text (.heading p.1 p.2)) p.1 [] []) := by
  refine ⟨fun st d cs => rfl, fun ns d cs => ?_, fun hs => ?_⟩
  · unfold index_nodes
    rw [List.foldl_append, List.foldl_cons, List.foldl_nil, finalize_index_step_heading]
  · unfold index_nodes
    rw [run_headings]
    rfl

theorem push_text_blank (st : SegState) (t : String) (hb : is_blank t = true) :
    push_text st t = st := by
  simp [push_text, hb]

theorem push_text_some (S : List Section) (sec : Section) (t : String)
    (hb : is_blank t = false) :
    push_text ⟨S, some sec⟩ t
      = ⟨S, some { sec with body_text := sec.body_text ++ [t] }⟩ := by
  simp [push_text, hb]

theorem push_text_none (S : List Section) (t : String) (hb : is_blank t = false) :
    push_text ⟨S, none⟩ t
      = ⟨S, some { title := "(preamble)", level := 0,
                   body_text := [t], code_blocks := [] }⟩ := by
  simp [push_text, hb]

/-- The code-block step appends the record verbatim to the open section,
first opening a preamble section when none is open; it never touches the list
of finished sections and never changes the open section's title or level. -/
theorem index_step_code_eq (st : SegState) (l m : Option String) (v : String) :
    index_step st (.code l m v)
      = (let base := st.current.getD
            { title := "(preamble)", level := 0, body_text := [], code_blocks := [] }
         { sections := st.sections,
           current := some ({ base with code_blocks := base.code_blocks ++ [⟨l, m, v⟩] }) }) := by
  cases st with
  | mk S cur =>
      cases cur with
      | some sec => rfl
      | none => rfl

/-- C5: for every top-level code-block node the segmenter appends a record
with the node's language tag, metadata tag and verbatim literal value to the
current section's `code_blocks` (at the end, preserving document order),
opening a preamble section (sentinel title, level 0) first when no section is
open; the finished-section list is untouched and the open section's title and
level are preserved, so a code block never closes a section nor starts a
heading-bound one. -/
theorem c5_code_block_step : ∀ (st : SegState) (l m : Option String) (v : String),
    index_step st (.code l m v)
      = (let base := st.current.getD
            { title := "(preamble)", level := 0, body_text := [], code_blocks := [] }
         { sections := st.sections,
           current := some ({ base with code_blocks := base.code_blocks ++ [⟨l, m, v⟩] }) }) :=
  fun st l m v => index_step_code_eq st l m v

/-- C10: the code-block step is never subjected to the whitespace-only drop
rule: even a blank literal value is appended (opening a preamble section when
needed), and a document holding only an empty fenced code block yields one
preamble section with that one record and an empty body. -/
theorem c10_blank_code_kept :
    (∀ (st : SegState) (l m : Option String) (v : String), is_blank v = true →
        index_step st (.code l m v)
          = (let base := st.current.getD
                { title := "(preamble)", level := 0, body_text := [], code_blocks := [] }
             { sections := st.sections,
               current := some ({ base with code_blocks := base.code_blocks ++ [⟨l, m, v⟩] }) }))
    ∧ (∀ l m : Option String,
        index_nodes [.code l m ""]
          = [{ title := "(preamble)", level := 0, body_text := [],
               code_blocks := [⟨l, m, ""⟩] }]) := by
  refine ⟨fun st l m v _ => index_step_code_eq st l m v, fun l m => rfl⟩

theorem c10_blank_code_kept_witness :
    index_step { sections := [], current := none } (.code (some "rust") none "  ")
      = { sections := [],
          current := some { title := "(preamble)", level := 0, body_text := [],
                            code_blocks := [⟨some "rust", none, "  "⟩] } } := by
  have h := c10_blank_code_kept.1 { sections := [], current := none }
    (some "rust") none "  " (by decide)
  simpa using h

/-- The "Other" bucket of the spec's node taxonomy: every top-level node kind
that is neither a heading nor a top-level code block. -/
def is_other : MdNode → Bool
  | .heading _ _ => false
  | .code _ _ _ => false
  | .paragraph _ => true
  | .text _ => true
  | .inlineCode _ => true
  | .container _ => true
  | .opaqueLeaf _ => true
  | .leaf => true

theorem index_step_other (st : SegState) (n : MdNode) (ho : is_other n = true) :
    index_step st n = push_text st (node_to_plain_text n) := by
  cases n with
  | heading d cs => exact absurd ho (by simp [is_other])
  | code l m v => exact absurd ho (by simp [is_other])
  | paragraph cs => rfl
  | text v => rfl
  | inlineCode v => rfl
  | container cs => rfl
  | opaqueLeaf v => rfl
  | leaf => rfl

/-- Every node is a heading, a code block, or in the "Other" bucket. -/
theorem mdnode_shape (n : MdNode) :
    (∃ d cs, n = MdNode.heading d cs) ∨ (∃ l m v, n = MdNode.code l m v)
      ∨ is_other n = true := by
  cases n with
  | heading d cs => exact Or.inl ⟨d, cs, rfl⟩
  | code l m v => exact Or.inr (Or.inl ⟨l, m, v, rfl⟩)
  | paragraph cs => exact Or.inr (Or.inr rfl)
  | text v => exact Or.inr (Or.inr rfl)
  | inlineCode v => exact Or.inr (Or.inr rfl)
  | container cs => exact Or.inr (Or.inr rfl)
  | opaqueLeaf v => exact Or.inr (Or.inr rfl)
  | leaf => exact Or.inr (Or.inr rfl)

/-- No section reachable in the state carries a blank `body_text` entry. -/
def bodies_ok (l : List Section) : Prop :=
  ∀ sec ∈ l, ∀ t ∈ sec.body_text, is_blank t = false

theorem bodies_ok_append (l l2 : List Section) (h : bodies_ok l) (h2 : bodies_ok l2) :
    bodies_ok (l ++ l2) := by
  intro sec hm
  rcases List.mem_append.mp hm with hm1 | hm2
  · exact h sec hm1
  · exact h2 sec hm2

theorem index_step_bodies (st : SegState) (n : MdNode)
    (h : bodies_ok (st.sections ++ st.current.toList)) :
    bodies_ok ((index_step st n).sections ++ (index_step st n).current.toList) := by
  rcases mdnode_shape n with ⟨d, cs, rfl⟩ | ⟨l, m, v, rfl⟩ | ho
  · rw [index_step_heading_eq, finalize_eq]
    refine bodies_ok_append _ _ h ?_
    intro sec hm t ht
    simp only [Option.toList_some, List.mem_singleton] at hm
    subst hm
    simp at ht
  · rw [index_step_code_eq]
    cases st with
    | mk S cur =>
        cases cur with
        | some sec =>
            refine bodies_ok_append _ _ (fun s hs => h s (List.mem_append_left _ hs)) ?_
            intro s hs t ht
            simp only [Option.toList_some, List.mem_singleton] at hs
            subst hs
            exact h sec (by simp) t ht
        | none =>
            refine bodies_ok_append _ _ (fun s hs => h s (List.mem_append_left _ hs)) ?_
            intro s hs t ht
            simp only [Option.toList_some, List.mem_singleton] at hs
            subst hs
            simp at ht
  · rw [index_step_other st n ho]
    cases hb : is_blank (node_to_plain_text n) with
    | true => rw [push_text_blank st _ hb]; exact h
    | false =>
        cases st with
        | mk S cur =>
            cases cur with
            | some sec =>
                rw [push_text_some S sec _ hb]
                refine bodies_ok_append _ _ (fun s hs => h s (List.mem_append_left _ hs)) ?_
                intro s hs t ht
                simp only [Option.toList_some, List.mem_singleton] at hs
                subst hs
                simp only [List.mem_append, List.mem_singleton] at ht
                rcases ht with ht | rfl
                · exact h sec (by simp) t ht
                · exact hb
            | none =>
                rw [push_text_none S _ hb]
                refine bodies_ok_append _ _ (fun s hs => h s (List.mem_append_left _ hs)) ?_
                intro s hs t ht
                simp only [Option.toList_some, List.mem_singleton] at hs
                subst hs
                simp only [List.mem_singleton] at ht
                subst ht
                exact hb

theorem foldl_bodies : (nodes : List MdNode) → (st : SegState) →
    bodies_ok (st.sections ++ st.current.toList) →
    bodies_ok ((nodes.foldl index_step st).sections
      ++ (nodes.foldl index_step st).current.toList)
  | [], _, h => h
  | n :: rest, st, h => by
      rw [List.foldl_cons]
      exact foldl_bodies rest (index_step st n) (index_step_bodies st n h)

/-- C2: a top-level node that is neither a heading nor a code block is
flattened; when the flattened text is empty or whitespace-only the node
contributes nothing (the state is unchanged, so no preamble section is
opened), otherwise the text is appended to the current section's `body_text`,
opening a preamble section first when no section is open; consequently no
entry of any output section's `body_text` is blank. -/
theorem c2_other_nodes :
    (∀ (st : SegState) (n : MdNode), is_other n = true →
        is_blank (node_to_plain_text n) = true → index_step st n = st)
    ∧ (∀ (st : SegState) (n : MdNode), is_other n = true →
        is_blank (node_to_plain_text n) = false →
        index_step st n
          = (let base := st.current.getD
                { title := "(preamble)", level := 0, body_text := [], code_blocks := [] }
             { sections := st.sections,
               current := some ({ base with
                  body_text := base.body_text ++ [node_to_plain_text n] }) }))
    ∧ (∀ nodes : List MdNode, ∀ sec ∈ index_nodes nodes,
        ∀ t ∈ sec.body_text, is_blank t = false) := by
  refine ⟨fun st n ho hb => ?_, fun st n ho hb => ?_, fun nodes sec hm t ht => ?_⟩
  · rw [index_step_other st n ho, push_text_blank st _ hb]
  · rw [index_step_other st n ho]
    cases st with
    | mk S cur =>
        cases cur with
        | some s => rw [push_text_some S s _ hb]; rfl
        | none => rw [push_text_none S _ hb]; rfl
  · have h0 : bodies_ok (([] : List Section) ++ (none : Option Section).toList) := by
      intro s hs
      simp at hs
    have h := foldl_bodies nodes { sections := [], current := none } h0
    have hfin : bodies_ok (index_nodes nodes) := by
      unfold index_nodes
      rw [finalize_eq]
      exact h
    exact hfin sec hm t ht

theorem c2_other_nodes_witness :
    index_step { sections := [], current := none } (.text " \t ")
        = { sections := [], current := none }
    ∧ index_step { sections := [], current := none } (.paragraph [.text "hi"])
        = { sections := [],
            current := some { title := "(preamble)", level := 0,
                              body_text := ["hi"], code_blocks := [] } } := by
  constructor
  · exact c2_other_nodes.1 { sections := [], current := none } (.text " \t ")
      (by decide) (by decide)
  · have h := c2_other_nodes.2.1 { sections := [], current := none }
      (.paragraph [.text "hi"]) (by decide) (by decide)
    simpa using h

/-! Characterization of the output's titles and levels, used for the preamble
and section-count claims. -/

/-- The identifying pair (title, level) of a section. -/
def sec_key (s : Section) : String × Nat :=
  (s.title, s.level)

/-- Flattened title and depth of every top-level heading, in order. -/
def heading_keys : List MdNode → List (String × Nat)
  | [] => []
  | .heading d cs :: rest => (node_to_plain_text (.heading d cs), d) :: heading_keys rest
  | _ :: rest => heading_keys rest

/-- Does this node contribute content when no section is open? (A code block
always does; an "Other" node does when its flattened text is not blank.) -/
def contributes : MdNode → Bool
  | .heading _ _ => false
  | .code _ _ _ => true
  | n => !is_blank (node_to_plain_text n)

/-- Does some contributing content appear before the first heading? -/
def has_preamble_content : List MdNode → Bool
  | [] => false
  | .heading _ _ :: _ => false
  | n :: rest => contributes n || has_preamble_content rest

theorem heading_keys_cons_other (n : MdNode) (rest : List MdNode)
    (ho : is_other n = true) :
    heading_keys (n :: rest) = heading_keys rest := by
  cases n <;> first | rfl | exact absurd ho (by simp [is_other])

theorem hpc_cons_other (n : MdNode) (rest : List MdNode) (ho : is_other n = true) :
    has_preamble_content (n :: rest)
      = (!is_blank (node_to_plain_text n) || has_preamble_content rest) := by
  cases n <;> first | rfl | exact absurd ho (by simp [is_other])

theorem run_keys_some : (nodes : List MdNode) → (S : List Section) → (sec : Section) →
    (finalize (nodes.foldl index_step ⟨S, some sec⟩)).map sec_key
      = S.map sec_key ++ sec_key sec :: heading_keys nodes
  | [], S, sec => by simp [finalize, heading_keys]
  | n :: rest, S, sec => by
      rw [List.foldl_cons]
      rcases mdnode_shape n with ⟨d, cs, rfl⟩ | ⟨l, m, v, rfl⟩ | ho
      · rw [index_step_heading_eq,
          show finalize ⟨S, some sec⟩ = S ++ [sec] from rfl,
          run_keys_some rest (S ++ [sec]) _]
        simp [heading_keys, sec_key]
      · rw [show index_step ⟨S, some sec⟩ (.code l m v)
            = ⟨S, some { sec with code_blocks := sec.code_blocks ++ [⟨l, m, v⟩] }⟩ from rfl,
          run_keys_some rest S _]
        rfl
      · rw [index_step_other _ n ho, heading_keys_cons_other n rest ho]
        cases hb : is_blank (node_to_plain_text n) with
        | true =>
            rw [push_text_blank _ _ hb, run_keys_some rest S sec]
        | false =>
            rw [push_text_some S sec _ hb, run_keys_some rest S _]
            rfl

theorem run_keys_none : (nodes : List MdNode) → (S : List Section) →
    (finalize (nodes.foldl index_step ⟨S, none⟩)).map sec_key
      = S.map sec_key
        ++ (if has_preamble_content nodes = true
            then [(("(preamble)" : String), (0 : Nat))] else [])
        ++ heading_keys nodes
  | [], S => by simp [finalize, heading_keys, has_preamble_content]
  | n :: rest, S => by
      rw [List.foldl_cons]
      rcases mdnode_shape n with ⟨d, cs, rfl⟩ | ⟨l, m, v, rfl⟩ | ho
      · rw [index_step_heading_eq,
          show finalize ⟨S, none⟩ = S from rfl,
          run_keys_some rest S _]
        simp [heading_keys, has_preamble_content, sec_key]
      · rw [show index_step ⟨S, none⟩ (.code l m v)
            = ⟨S, some { title := "(preamble)", level := 0,
                         body_text := [], code_blocks := [⟨l, m, v⟩] }⟩ from rfl,
          run_keys_some rest S _]
        simp [heading_keys, has_preamble_content, contributes, sec_key]
      · rw [index_step_other _ n ho, hpc_cons_other n rest ho,
          heading_keys_cons_other n rest ho]
        cases hb : is_blank (node_to_plain_text n) with
        | true =>
            rw [push_text_blank _ _ hb, run_keys_none rest S]
            simp
        | false =>
            rw [push_text_none S _ hb, run_keys_some rest S _]
            simp [sec_key]

/-- The titles and levels of the output: an optional leading preamble key,
then one key per top-level heading, in document order. -/
theorem index_keys (nodes : List MdNode) :
    (index_nodes nodes).map sec_key
      = (if has_preamble_content nodes = true
         then [(("(preamble)" : String), (0 : Nat))] else [])
        ++ heading_keys nodes := by
  have h := run_keys_none nodes []
  simpa [index_nodes] using h

/-- C3: at most one preamble section (level 0) exists, it exists exactly when
contributing content (a code block, or a node with non-blank flattened text)
appears before the first heading, and when present it is the first output
element, with level 0 and the sentinel title.  The hypothesis records that the
external parser only produces heading depths 1–6, so no heading-born section
has level 0. -/
theorem c3_preamble_unique (nodes : List MdNode)
    (hv : ∀ k ∈ heading_keys nodes, k.2 ≠ 0) :
    (has_preamble_content nodes = true ↔
      ∃ sec rest, index_nodes nodes = sec :: rest
        ∧ sec.title = "(preamble)" ∧ sec.level = 0)
    ∧ ∀ sec ∈ (index_nodes nodes).tail, sec.level ≠ 0 := by
  have hK := index_keys nodes
  cases hpc : has_preamble_content nodes with
  | true =>
      rw [if_pos hpc] at hK
      cases hL : index_nodes nodes with
      | nil =>
          rw [hL] at hK
          exact absurd hK (by simp)
      | cons s rest =>
          rw [hL, List.map_cons, List.singleton_append] at hK
          injection hK with h1 h2
          have ht : s.title = "(preamble)" := congrArg Prod.fst h1
          have hl0 : s.level = 0 := congrArg Prod.snd h1
          constructor
          · exact ⟨fun _ => ⟨s, rest, rfl, ht, hl0⟩, fun _ => rfl⟩
          · intro sec hm h0
            rw [List.tail_cons] at hm
            have hk2 : sec_key sec ∈ heading_keys nodes :=
              h2 ▸ List.mem_map_of_mem sec_key hm
            exact hv _ hk2 h0
  | false =>
      rw [if_neg (by simp [hpc])] at hK
      rw [List.nil_append] at hK
      constructor
      · constructor
        · intro h
          exact absurd h (by decide)
        · rintro ⟨sec, rest, hL, _, hl0⟩
          exfalso
          have hk2 : sec_key sec ∈ heading_keys nodes := by
            rw [← hK, hL]
            exact List.mem_map_of_mem sec_key (by simp)
          exact hv _ hk2 hl0
      · intro sec hm h0
        have hmem : sec ∈ index_nodes nodes := List.mem_of_mem_tail hm
        have hk2 : sec_key sec ∈ heading_keys nodes := by
          rw [← hK]
          exact List.mem_map_of_mem sec_key hmem
        exact hv _ hk2 h0

/-- A small document with preamble content (a code block) before its single
depth-1 heading, used to instantiate the preamble claim. -/
def preamble_demo_nodes : List MdNode :=
  [.code (some "bash") none "echo hi", .heading 1 [.text "Title"],
   .paragraph [.text "body"]]

theorem c3_preamble_unique_witness :
    (has_preamble_content preamble_demo_nodes = true ↔
      ∃ sec rest, index_nodes preamble_demo_nodes = sec :: rest
        ∧ sec.title = "(preamble)" ∧ sec.level = 0)
    ∧ ∀ sec ∈ (index_nodes preamble_demo_nodes).tail, sec.level ≠ 0 :=
  c3_preamble_unique preamble_demo_nodes (by decide)

/-- Is this node a heading? -/
def is_heading : MdNode → Bool
  | .heading _ _ => true
  | _ => false

theorem heading_keys_length : (nodes : List MdNode) →
    (heading_keys nodes).length = nodes.countP is_heading
  | [] => by simp [heading_keys]
  | n :: rest => by
      cases n <;>
        simp [heading_keys, is_heading, List.countP_cons, heading_keys_length rest]

/-- C7: the number of output sections is the number of top-level heading
nodes, plus one exactly when contributing content appears before the first
heading; with no headings and no such content the output is empty. -/
theorem c7_section_count :
    (∀ nodes : List MdNode,
        (index_nodes nodes).length
          = nodes.countP is_heading
            + (if has_preamble_content nodes = true then 1 else 0))
    ∧ (∀ nodes : List MdNode, nodes.countP is_heading = 0 →
        has_preamble_content nodes = false → index_nodes nodes = []) := by
  have hlen : ∀ nodes : List MdNode,
      (index_nodes nodes).length
        = nodes.countP is_heading
          + (if has_preamble_content nodes = true then 1 else 0) := by
    intro nodes
    have h := congrArg List.length (index_keys nodes)
    rw [List.length_map, List.length_append, heading_keys_length] at h
    rw [h]
    cases hpc : has_preamble_content nodes <;> simp [Nat.add_comm]
  refine ⟨hlen, fun nodes h0 hp => ?_⟩
  have h := hlen nodes
  rw [h0, hp] at h
  simp only [Nat.zero_add] at h
  rw [if_neg (by simp)] at h
  exact List.length_eq_zero.mp h

theorem c7_section_count_witness :
    index_nodes [MdNode.leaf, MdNode.text " "] = [] :=
  c7_section_count.2 [MdNode.leaf, MdNode.text " "] (by decide) (by decide)

/-- C6: segmentation is total — `index_markdown` maps a successful parse to a
successful section list and merely propagates a parse error, so it returns an
error exactly when the upstream parse fails. -/
theorem c6_error_free :
    (∀ (p : String → Except String (List MdNode)) (src : String),
        index_markdown p src = (p src).map index_nodes)
    ∧ (∀ (p : String → Except String (List MdNode)) (src : String) (e : String),
        index_markdown p src = .error e ↔ p src = .error e) := by
  constructor
  · intro p src
    unfold index_markdown
    cases p src <;> rfl
  · intro p src e
    unfold index_markdown
    cases h : p src with
    | error a => simp
    | ok a => simp

/-- C8: the boundary record built from a section copies the title into
`header` and the body into `text_blocks` (order preserved), and projects each
code record to its literal value only, dropping the language and metadata
tags. -/
theorem c8_boundary_record : ∀ (fp : String) (s : Section),
    (section_to_document_element fp s).file_path = fp
    ∧ (section_to_document_element fp s).header = s.title
    ∧ (section_to_document_element fp s).text_blocks = s.body_text
    ∧ (section_to_document_element fp s).code_blocks
        = s.code_blocks.map fun cb => cb.value :=
  fun _ _ => ⟨rfl, rfl, rfl, rfl⟩

/-! Claimed acceptance condition for the argument parser, modelled from the
claim's wording: parsing succeeds exactly when at least one positional input
remains after optionally removing a trailing depth flag followed by a value
parsing as a nonnegative integer, and no remaining positional input begins
with a dash. -/

def remove_depth_with (rest : List String) (last : String) : Option (List String) :=
  if depth_flag last then none
  else if 2 ≤ rest.length && (rest.get? (rest.length - 2)).any depth_flag then
    match parse_usize last with
    | some _ => some (rest.take (rest.length - 2))
    | none => none
  else some rest

/-- Remove the trailing depth pair when present; `none` marks the failure
cases (depth flag as final token with no value, or unparsable depth value). -/
def remove_depth_pair (rest : List String) : Option (List String) :=
  match rest.getLast? with
  | none => some []
  | some last => remove_depth_with rest last

/-- The claim's acceptance condition on the argument vector after the program
name. -/
def spec_accepts (rest : List String) : Bool :=
  match remove_depth_pair rest with
  | none => false
  | some inputs => !inputs.isEmpty && inputs.all fun a => !starts_with_dash a

theorem accept_inputs_isOk (program : String) (inputs : List String)
    (depth : Option Nat) :
    (accept_inputs program inputs depth).isOk
      = (!inputs.isEmpty && inputs.all fun a => !starts_with_dash a) := by
  unfold accept_inputs
  cases he : inputs.isEmpty with
  | true => simp [Except.isOk, Except.toBool]
  | false =>
      cases hf : inputs.find? starts_with_dash with
      | none =>
          have hall : inputs.all (fun a => !starts_with_dash a) = true := by
            rw [List.all_eq_true]
            intro a ha
            have h := List.find?_eq_none.mp hf a ha
            simp only [Bool.not_eq_true] at h
            simp [h]
          simp [Except.isOk, Except.toBool, hall]
      | some a =>
          have hpa : starts_with_dash a = true := List.find?_some hf
          have hma : a ∈ inputs := List.mem_of_find?_eq_some hf
          have hall : inputs.all (fun a => !starts_with_dash a) = false := by
            cases hallc : inputs.all (fun a => !starts_with_dash a) with
            | false => rfl
            | true =>
                have h := List.all_eq_true.mp hallc a hma
                rw [hpa] at h
                exact absurd h (by decide)
          simp [Except.isOk, Except.toBool, hall]

theorem parse_rest_with_isOk (program : String) (rest : List String) (last : String) :
    (parse_rest_with program rest last).isOk
      = (match remove_depth_with rest last with
         | none => false
         | some inputs => !inputs.isEmpty && inputs.all fun a => !starts_with_dash a) := by
  unfold parse_rest_with remove_depth_with
  cases hdf : depth_flag last with
  | true => rfl
  | false =>
      simp only [Bool.false_eq_true, if_false]
      cases hc : (2 ≤ rest.length && (rest.get? (rest.length - 2)).any depth_flag) with
      | true =>
          simp only [if_true]
          cases hp : parse_usize last with
          | none => rfl
          | some d => exact accept_inputs_isOk program _ (some d)
      | false =>
          simp only [Bool.false_eq_true, if_false]
          exact accept_inputs_isOk program rest none

theorem parse_rest_isOk (program : String) (rest : List String) :
    (parse_rest program rest).isOk = spec_accepts rest := by
  unfold parse_rest spec_accepts remove_depth_pair
  cases hl : rest.getLast? with
  | none => rfl
  | some last => exact parse_rest_with_isOk program rest last

/-- C9: argument parsing succeeds exactly when at least one positional input
remains after optionally removing a trailing depth flag (`--depth` or `-d`,
checked at the second-to-last position) followed by a value parsing as a
nonnegative integer, and no remaining positional input begins with a dash;
every other argument vector (valueless trailing depth flag, unparsable depth
value, dash-prefixed token among the inputs, or no positional input at all)
is rejected. -/
theorem c9_parse_args_accepts (args : List String) :
    (parse_args args).isOk = spec_accepts (args.drop 1) := by
  unfold parse_args
  by_cases hlen : args.length < 2
  · rw [if_pos hlen]
    have hd : args.drop 1 = [] := List.drop_eq_nil_of_le (by omega)
    rw [hd]
    rfl
  · rw [if_neg hlen]
    exact parse_rest_isOk _ _
